import Mathlib

/-!
Verification of the auto-labeling / vector-memory subsystem.

The definitions below are shallow embeddings of the Python sources:
`model.py` (Classifier, maybe_auto_label), `memory.py` (Memory store and the
module-level merge script), and `curate_knowledge.py` (merge_auto_labeled_data).
Machine floats are modelled as rationals (`ℚ`); a NumPy NaN is modelled as
`none` in `Option ℚ`; Python exceptions are modelled with `Except` / paired
error options.
-/

/-- PyErr enumerates the Python exception classes the embedded code can raise. -/
inductive PyErr where
  | typeError
  | valueError
  | faissDimError
  | nameError
  | indexError
  | fileNotFound
  deriving DecidableEq, Repr

/-! ## CSV writer (model.py, maybe_auto_label) and reader (curate_knowledge.py)

`maybe_auto_label` writes rows with Python's `csv.writer` in the default
excel dialect: QUOTE_MINIMAL, `quotechar='"'`, `doublequote=True`, no
escapechar, line terminator `\r\n`.  The merge step re-parses with
`pd.read_csv(..., quoting=csv.QUOTE_ALL, escapechar='\\')`: quotes are
honoured, doubled quotes collapse, and a backslash escapes the next
character (both inside and outside quoted fields). -/

/-- needsQuote: the excel dialect under QUOTE_MINIMAL quotes a field iff it
contains the quote char, the delimiter, or a line-terminator character. -/
def needsQuote (s : List Char) : Bool :=
  s.any (fun c => c = '"' || c = ',' || c = '\n' || c = '\r')

/-- doubleQuotes doubles every embedded quote character, as `csv.writer`
does with `doublequote=True`. -/
def doubleQuotes : List Char → List Char
  | [] => []
  | c :: cs => if c = '"' then '"' :: '"' :: doubleQuotes cs else c :: doubleQuotes cs

/-- encodeField is the `csv.writer` encoding of one field under QUOTE_MINIMAL. -/
def encodeField (s : List Char) : List Char :=
  if needsQuote s then '"' :: (doubleQuotes s ++ ['"']) else s

/-- csvRow is the exact byte sequence `csv.writer.writerow([text, label])`
appends: two encoded fields joined by a comma, terminated by CRLF. -/
def csvRow (text label : List Char) : List Char :=
  encodeField text ++ [','] ++ encodeField label ++ ['\r', '\n']

/-- parseQuoted consumes the interior of a quoted field, as the pandas
tokenizer does with `doublequote=True` and `escapechar='\\'`: a doubled
quote yields a literal quote, a single quote closes the field, and a
backslash makes the following character literal. -/
def parseQuoted : List Char → Option (List Char × List Char)
  | [] => none
  | ['"'] => some ([], [])
  | '"' :: c2 :: rest2 =>
    if c2 = '"' then (parseQuoted rest2).map (fun r => ('"' :: r.1, r.2))
    else some ([], c2 :: rest2)
  | '\\' :: c2 :: rest2 => (parseQuoted rest2).map (fun r => (c2 :: r.1, r.2))
  | c :: rest => (parseQuoted rest).map (fun r => (c :: r.1, r.2))

/-- parseUnquoted consumes an unquoted field up to a delimiter or a line
end; `escapechar='\\'` makes the following character literal. -/
def parseUnquoted : List Char → Option (List Char × List Char)
  | [] => some ([], [])
  | ['\\'] => some (['\\'], [])
  | '\\' :: c2 :: rest2 => (parseUnquoted rest2).map (fun r => (c2 :: r.1, r.2))
  | c :: rest =>
    if c = ',' || c = '\r' || c = '\n' then some ([], c :: rest)
    else (parseUnquoted rest).map (fun r => (c :: r.1, r.2))

/-- parseField parses one CSV field the way the merge step's reader does: a
field is quoted iff its first character is a quote. -/
def parseField (l : List Char) : Option (List Char × List Char) :=
  match l with
  | [] => parseUnquoted []
  | c :: rest => if c = '"' then parseQuoted rest else parseUnquoted (c :: rest)

/-- roundTripText writes a record whose text field is `t` through the
Auto-Label Gate's writer and re-parses the text field with the merge step's
reader. -/
def roundTripText (t : List Char) : Option (List Char) :=
  (parseField (csvRow t ['l'])).map Prod.fst

/-! ## Auto-Label Gate (model.py, maybe_auto_label)

The pending store `data/auto_labeled_data.csv` is modelled as
`Option (List (List Char))`: `none` when the file does not exist, otherwise
the list of row writes (the header line plus one `csvRow` per append). -/

/-- CONFIDENCE_THRESHOLD from config.py. -/
def CONFIDENCE_THRESHOLD : ℚ := 85 / 100

/-- gatePersists is the gate's test `confidence >= CONFIDENCE_THRESHOLD`,
with the threshold abstracted so threshold-dependence can be stated. -/
def gatePersists (confidence threshold : ℚ) : Bool :=
  threshold ≤ confidence

/-- PendingStore: `none` models a missing auto-label CSV file. -/
abbrev PendingStore := Option (List (List Char))

/-- headerLine is the header `maybe_auto_label` writes when the file does
not yet exist. -/
def headerLine : List Char := "text,label\n".toList

/-- appendRow models the body of the persist branch of `maybe_auto_label`:
create the file with a header if absent, then append one row. -/
def appendRow (fs : PendingStore) (row : List Char) : PendingStore :=
  some ((match fs with | none => [headerLine] | some rows => rows) ++ [row])

/-- maybe_auto_label from model.py: persist the CSV-encoded record when the
confidence clears the configured threshold.  The Python function always
falls off the end of its body, so its return value is `None`, modelled as
the second component being `none : Option Bool`. -/
def maybe_auto_label (fs : PendingStore) (text label : List Char) (confidence : ℚ) :
    PendingStore × Option Bool :=
  if gatePersists confidence CONFIDENCE_THRESHOLD then
    (appendRow fs (csvRow text label), none)
  else (fs, none)

/-! ## Labeled records and the merge steps

`curate_knowledge.merge_auto_labeled_data` reads both CSVs with pandas,
concatenates `[labeled_df, auto_df]`, drops duplicate `text` keeping the
last occurrence, writes the result back and removes the pending file.
The module-level script at the bottom of `memory.py` concatenates
`[labeled_df, auto_df]` read from the hardcoded paths `data/labeled.csv`
and `data/auto_labeled.csv` and drops duplicate `text` with pandas'
default `keep='first'`. -/

/-- LabeledRecord: one CSV row of a labeled dataset. -/
structure LabeledRecord where
  text : String
  label : String
  deriving DecidableEq, Repr

/-- dedupKeepLast is pandas `drop_duplicates(subset="text", keep='last')`:
a row survives iff no later row has the same text, order preserved. -/
def dedupKeepLast : List LabeledRecord → List LabeledRecord
  | [] => []
  | r :: rs =>
    if r.text ∈ rs.map LabeledRecord.text then dedupKeepLast rs
    else r :: dedupKeepLast rs

/-- dedupKeepFirstAux: pandas `drop_duplicates(subset="text")` with the
default `keep='first'`, carrying the set of texts already seen. -/
def dedupKeepFirstAux (seen : List String) : List LabeledRecord → List LabeledRecord
  | [] => []
  | r :: rs =>
    if r.text ∈ seen then dedupKeepFirstAux seen rs
    else r :: dedupKeepFirstAux (r.text :: seen) rs

/-- dedupKeepFirst keeps the first occurrence of each text, order preserved. -/
def dedupKeepFirst (l : List LabeledRecord) : List LabeledRecord :=
  dedupKeepFirstAux [] l

/-- lastWith finds the last record of the list carrying the given text. -/
def lastWith (t : String) : List LabeledRecord → Option LabeledRecord
  | [] => none
  | r :: rs =>
    match lastWith t rs with
    | some x => some x
    | none => if r.text = t then some r else none

/-- firstWith finds the first record of the list carrying the given text. -/
def firstWith (t : String) : List LabeledRecord → Option LabeledRecord
  | [] => none
  | r :: rs => if r.text = t then some r else firstWith t rs

/-- merge_auto_labeled_data from curate_knowledge.py over file contents
(`none` = file absent).  Result: (new labeled file, new pending file).
A missing pending file is a no-op; an empty pending file is removed; an
absent labeled file is read as an empty DataFrame; otherwise the
concatenation is deduplicated keeping the last occurrence, written back,
and the pending file is removed. -/
def merge_auto_labeled_data (labeled autoPending : Option (List LabeledRecord)) :
    Option (List LabeledRecord) × Option (List LabeledRecord) :=
  match autoPending with
  | none => (labeled, none)
  | some autoRecs =>
    if autoRecs.isEmpty then (labeled, none)
    else (some (dedupKeepLast (labeled.getD [] ++ autoRecs)), none)

/-- MergeScriptFs: the two files the module-level script at the bottom of
memory.py touches, `data/auto_labeled.csv` and `data/labeled.csv`. -/
structure MergeScriptFs where
  autoLabeledCsv : Option (List LabeledRecord)
  labeledCsv : Option (List LabeledRecord)
  deriving DecidableEq, Repr

/-- memoryModuleImport models executing `import memory`: after the class
body, the module-level script runs `pd.read_csv("data/auto_labeled.csv")`,
then `pd.read_csv("data/labeled.csv")` (each raising FileNotFoundError if
the file is absent, which aborts the import), concatenates
`[labeled_df, auto_df]`, drops duplicate texts keeping the first
occurrence, and overwrites `data/labeled.csv`. -/
def memoryModuleImport (fs : MergeScriptFs) : Except PyErr MergeScriptFs :=
  match fs.autoLabeledCsv with
  | none => .error .fileNotFound
  | some autoRecs =>
    match fs.labeledCsv with
    | none => .error .fileNotFound
    | some labeledRecs =>
      .ok ⟨some autoRecs, some (dedupKeepFirst (labeledRecs ++ autoRecs))⟩

/-! ## Classifier (model.py)

`Classifier.__init__` sets `pipeline = None` when no artifact exists (it
prints a warning and does not raise).  `predict` tries `predict_proba`,
falling back on `AttributeError` to `decision_function`; the fallback
min-max normalizes the margin vector when it is 1-D with more than one
entry, and otherwise executes `np.array([1.0])` — but model.py never
imports numpy, so that line raises `NameError`.  When all margins are
equal the normalization divides zero by zero, which NumPy evaluates to
NaN (modelled as `none`). -/

/-- NumVal models a NumPy float: `none` is NaN. -/
abbrev NumVal := Option ℚ

/-- npMin is `ndarray.min()` on a nonempty 1-D array. -/
def npMin : List ℚ → ℚ
  | [] => 0
  | [x] => x
  | x :: y :: xs => min x (npMin (y :: xs))

/-- npMax is `ndarray.max()` on a nonempty 1-D array. -/
def npMax : List ℚ → ℚ
  | [] => 0
  | [x] => x
  | x :: y :: xs => max x (npMax (y :: xs))

/-- normalizeBranch is the body of the `except AttributeError` branch of
`Classifier.predict` that turns decision values into `probs`: min-max
normalization when the vector is 1-D with more than one entry; otherwise
the source line `probs = np.array([1.0])` raises NameError because numpy
is never imported in model.py. -/
def normalizeBranch (dv : List ℚ) : Except PyErr (List NumVal) :=
  if 1 < dv.length then
    if npMax dv = npMin dv then
      .ok (dv.map (fun _ => (none : NumVal)))
    else
      .ok (dv.map (fun x => some ((x - npMin dv) / (npMax dv - npMin dv))))
  else .error .nameError

/-- nvReplace: NumPy's argmax scan replaces the current best by a later
candidate exactly when the current best is not NaN and the candidate is
NaN or strictly greater (hence argmax returns the first NaN if any,
otherwise the first maximum). -/
def nvReplace (later cur : NumVal) : Bool :=
  match later, cur with
  | _, none => false
  | none, some _ => true
  | some a, some b => decide (b < a)

/-- npArgmaxNV is `ndarray.argmax()` over NumPy floats, returning the
winning index together with the winning value. -/
def npArgmaxNV : List NumVal → ℕ × NumVal
  | [] => (0, some 0)
  | [x] => (0, x)
  | x :: y :: xs =>
    let r := npArgmaxNV (y :: xs)
    if nvReplace r.2 x then (r.1 + 1, r.2) else (0, x)

/-- ProbaModel: a pipeline exposing `predict_proba` and `classes_`. -/
structure ProbaModel where
  classes : List String
  predictProba : String → List ℚ

/-- MarginModel: a pipeline exposing only `decision_function` and
`classes_`. -/
structure MarginModel where
  classes : List String
  decisionFunction : String → List ℚ

/-- Pipeline: the two shapes of loaded artifact `predict` distinguishes via
the `AttributeError` fallback. -/
inductive Pipeline where
  | proba (m : ProbaModel)
  | margin (m : MarginModel)

/-- selectBest is the tail of `Classifier.predict`: `best_idx = probs.argmax()`
then `return classes[best_idx], probs[best_idx]` (an out-of-range index
would raise IndexError). -/
def selectBest (classes : List String) (probs : List NumVal) :
    Except PyErr (String × NumVal) :=
  match classes.get? (npArgmaxNV probs).1, probs.get? (npArgmaxNV probs).1 with
  | some c, some conf => .ok (c, conf)
  | _, _ => .error .indexError

/-- Classifier.predict from model.py: with no pipeline loaded it returns
`("unclassified", 0.0)`; with a probability pipeline it returns the class
of maximum probability; with a margin pipeline it normalizes the decision
values first. -/
def Classifier.predict (pipeline : Option Pipeline) (text : String) :
    Except PyErr (String × NumVal) :=
  match pipeline with
  | none => .ok ("unclassified", some 0)
  | some (.proba p) => selectBest p.classes ((p.predictProba text).map some)
  | some (.margin p) =>
    match normalizeBranch (p.decisionFunction text) with
    | .error e => .error e
    | .ok probs => selectBest p.classes probs

/-! ## Vector Memory Store (memory.py)

The FAISS `IndexFlatL2` is modelled by the list of stored vectors (its
`ntotal` is the list length).  `add` reshapes the argument with
`np.array([vector], dtype=np.float32)` — raising TypeError for a
non-ndarray argument, ValueError for non-numeric entries — and FAISS
itself rejects a vector whose dimension differs from the index dimension
before mutating anything.  `search` returns the `k` nearest stored
vectors by squared L2 distance, padding with index `-1` when fewer than
`k` exist.  Metadata entries are modelled with an arbitrary type `α`. -/

/-- NdValue: one entry of a candidate ndarray; `none` is a non-numeric
entry (e.g. a string), which `dtype=np.float32` conversion rejects. -/
abbrev NdValue := Option ℚ

/-- AddArg: the Python value passed to `Memory.add` — either an ndarray or
some other object (rejected by the `isinstance` check). -/
inductive AddArg where
  | ndarray (v : List NdValue)
  | other

/-- toFloat32Vec is `np.array([vector], dtype=np.float32)`: fails iff some
entry is non-numeric. -/
def toFloat32Vec : List NdValue → Option (List ℚ)
  | [] => some []
  | none :: _ => none
  | some q :: rest => (toFloat32Vec rest).map (q :: ·)

/-- Memory: in-memory state of the store — the index dimension, the FAISS
index contents, and the parallel metadata list. -/
structure Memory (α : Type) where
  dim : ℕ
  vectors : List (List ℚ)
  metadata : List α
  deriving DecidableEq, Repr

/-- Memory.add from memory.py: `isinstance` check, float32 conversion,
`self.index.add` (FAISS rejects a wrong-dimension vector without mutating
the index), then `self.metadata.append(meta)`.  The result pairs the
state at return or raise time with the raised exception, if any. -/
def Memory.add {α : Type} (m : Memory α) (arg : AddArg) (meta : α) :
    Memory α × Option PyErr :=
  match arg with
  | .other => (m, some .typeError)
  | .ndarray v =>
    match toFloat32Vec v with
    | none => (m, some .valueError)
    | some x =>
      if x.length = m.dim then
        (⟨m.dim, m.vectors ++ [x], m.metadata ++ [meta]⟩, none)
      else (m, some .faissDimError)

/-- sqDist is the squared Euclidean distance FAISS's IndexFlatL2 ranks by. -/
def sqDist (q v : List ℚ) : ℚ :=
  ((List.zip q v).map (fun p => (p.1 - p.2) ^ 2)).sum

/-- withIdx pairs each entry of a list with its position, starting at `i`. -/
def withIdx : List ℚ → ℕ → List (ℕ × ℚ)
  | [], _ => []
  | d :: ds, i => (i, d) :: withIdx ds (i + 1)

/-- distLe orders (index, distance) pairs by distance. -/
def distLe (a b : ℕ × ℚ) : Prop := a.2 ≤ b.2

instance : DecidableRel distLe := fun a b => inferInstanceAs (Decidable (a.2 ≤ b.2))

instance : IsTotal (ℕ × ℚ) distLe := ⟨fun a b => le_total a.2 b.2⟩

instance : IsTrans (ℕ × ℚ) distLe := ⟨fun _ _ _ h h₂ => le_trans h h₂⟩

/-- searchPairs: all (stored position, distance to the query) pairs in
ascending distance order. -/
def searchPairs (vecs : List (List ℚ)) (q : List ℚ) : List (ℕ × ℚ) :=
  List.insertionSort distLe (withIdx (vecs.map (sqDist q)) 0)

/-- faissSearch is `index.search` for one query: the `k` nearest (label,
distance) pairs, padded with the sentinel label `-1` when the index holds
fewer than `k` vectors. -/
def faissSearch (vecs : List (List ℚ)) (q : List ℚ) (k : ℕ) : List (ℤ × ℚ) :=
  let top := ((searchPairs vecs q).take k).map (fun p => ((p.1 : ℤ), p.2))
  top ++ List.replicate (k - top.length) ((-1 : ℤ), 0)

/-- lookupAll models the comprehension `[self.metadata[i] for i in indices[0]
if i != -1]` after the filter: each remaining label indexes the metadata
list, and an out-of-range label would raise (yield `none`). -/
def lookupAll {α : Type} (meta : List α) : List (ℤ × ℚ) → Option (List α)
  | [] => some []
  | p :: ps =>
    match meta.get? p.1.toNat, lookupAll meta ps with
    | some r, some rs => some (r :: rs)
    | _, _ => none

/-- Memory.query from memory.py: empty store short-circuits to `[]`;
otherwise FAISS searches (rejecting a query of the wrong dimension), the
sentinel `-1` labels are filtered out, and the rest index the metadata
list.  `none` models a raised exception. -/
def Memory.query {α : Type} (m : Memory α) (q : List ℚ) (k : ℕ) : Option (List α) :=
  if m.vectors.isEmpty then some []
  else if q.length ≠ m.dim then none
  else lookupAll m.metadata ((faissSearch m.vectors q k).filter (fun p => p.1 != -1))

/-- DiskState: the two persisted artifacts, `data/memory.index` and
`data/metadata.pkl`; `none` models a missing file. -/
structure DiskState (α : Type) where
  indexFile : Option (List (List ℚ))
  metaFile : Option (List α)
  deriving DecidableEq, Repr

/-- Memory.save from memory.py: `faiss.write_index` plus pickling the
metadata list — both artifacts are rewritten wholesale. -/
def Memory.save {α : Type} (m : Memory α) : DiskState α :=
  ⟨some m.vectors, some m.metadata⟩

/-- Memory.init is `Memory.__init__`: the index file is loaded if it
exists (else a fresh empty index is created), and — independently — the
metadata file is loaded if it exists (else the metadata list starts
empty). -/
def Memory.init (α : Type) (dim : ℕ) (d : DiskState α) : Memory α :=
  ⟨dim,
   match d.indexFile with | some vs => vs | none => [],
   match d.metaFile with | some ms => ms | none => []⟩

/-! ## Helper lemmas -/

/-- Appending a row always changes the pending store. -/
theorem appendRow_ne (fs : PendingStore) (row : List Char) : appendRow fs row ≠ fs := by
  cases fs with
  | none => simp [appendRow]
  | some rows =>
    intro h
    have := congrArg (fun o => o.getD []) h
    simp [appendRow] at this


/-- Unfolding lemma: the unquoted parser copies an ordinary character. -/
theorem parseUnquoted_cons (c : Char) (rest : List Char)
    (h1 : c ≠ ',') (h2 : c ≠ '\r') (h3 : c ≠ '\n') (h4 : c ≠ '\\') :
    parseUnquoted (c :: rest) = (parseUnquoted rest).map (fun r => (c :: r.1, r.2)) := by
  match rest with
  | [] => simp [parseUnquoted, h1, h2, h3, h4]
  | r :: rest2 => simp [parseUnquoted, h1, h2, h3, h4]

/-- Unfolding lemma: the quoted parser copies an ordinary character. -/
theorem parseQuoted_cons (c : Char) (rest : List Char)
    (hq : c ≠ '"') (hb : c ≠ '\\') :
    parseQuoted (c :: rest) = (parseQuoted rest).map (fun r => (c :: r.1, r.2)) := by
  match rest with
  | [] => simp [parseQuoted, hq, hb]
  | r :: rest2 => simp [parseQuoted, hq, hb]

/-- The unquoted parser returns a clean field verbatim up to the delimiter. -/
theorem parseUnquoted_clean (t : List Char)
    (h : ∀ c ∈ t, c ≠ ',' ∧ c ≠ '\r' ∧ c ≠ '\n' ∧ c ≠ '\\') (rs : List Char) :
    parseUnquoted (t ++ ',' :: rs) = some (t, ',' :: rs) := by
  induction t with
  | nil => simp [parseUnquoted]
  | cons c cs ih =>
    obtain ⟨h1, h2, h3, h4⟩ := h c (List.mem_cons_self c cs)
    have ih' := ih (fun x hx => h x (List.mem_cons_of_mem c hx))
    rw [List.cons_append, parseUnquoted_cons c _ h1 h2 h3 h4, ih']
    rfl

/-- The quoted parser undoes quote doubling on backslash-free content. -/
theorem parseQuoted_clean (t : List Char) (h : '\\' ∉ t) (rs : List Char) :
    parseQuoted (doubleQuotes t ++ '"' :: ',' :: rs) = some (t, ',' :: rs) := by
  induction t with
  | nil => simp [doubleQuotes, parseQuoted]
  | cons c cs ih =>
    have hc : c ≠ '\\' := fun he => h (he ▸ List.mem_cons_self c cs)
    have ih' := ih (fun hm => h (List.mem_cons_of_mem c hm))
    by_cases hq : c = '"'
    · subst hq
      rw [show doubleQuotes ('"' :: cs) = '"' :: '"' :: doubleQuotes cs from rfl]
      rw [List.cons_append, List.cons_append]
      rw [show parseQuoted ('"' :: '"' :: (doubleQuotes cs ++ '"' :: ',' :: rs)) =
            (parseQuoted (doubleQuotes cs ++ '"' :: ',' :: rs)).map
              (fun r => ('"' :: r.1, r.2)) by simp [parseQuoted]]
      rw [ih']
      rfl
    · rw [show doubleQuotes (c :: cs) = c :: doubleQuotes cs by simp [doubleQuotes, hq]]
      rw [List.cons_append, parseQuoted_cons c _ hq hc, ih']
      rfl

/-- Unfolding lemma: a field starting with a quote is parsed as quoted. -/
theorem parseField_quoted (rest : List Char) :
    parseField ('"' :: rest) = parseQuoted rest := by
  simp [parseField]

/-- Unfolding lemma: a field starting with any other character is parsed
as unquoted. -/
theorem parseField_unquoted (c : Char) (rest : List Char) (hc : c ≠ '"') :
    parseField (c :: rest) = parseUnquoted (c :: rest) := by
  simp [parseField, hc]

/-! ## Claim C1 — Auto-Label Gate contract -/

/-- C1 counterexample: at confidence 1 the gate persists the record (the
pending store gains the encoded row, creating the file with its header),
yet the function's return value is `None`, not the boolean `true` the
claim requires for a persisted pair. -/
theorem c1_returns_none_counterexample :
    (maybe_auto_label none "hi".toList "x".toList 1).1 =
      some [headerLine, csvRow "hi".toList "x".toList] ∧
    (maybe_auto_label none "hi".toList "x".toList 1).2 = none := by
  have hg : gatePersists 1 CONFIDENCE_THRESHOLD = true := by
    simp [gatePersists, CONFIDENCE_THRESHOLD]
    norm_num
  constructor <;> simp [maybe_auto_label, hg, appendRow]

/-- C1 (amended): `maybe_auto_label` takes no threshold parameter — it
compares against the configured CONFIDENCE_THRESHOLD — and it persists the
(text, label) record iff `confidence >= CONFIDENCE_THRESHOLD`, the boundary
included; its return value is always `None`, never a boolean. -/
theorem c1_persists_iff_threshold (fs : PendingStore) (text label : List Char)
    (confidence : ℚ) :
    ((maybe_auto_label fs text label confidence).1 =
        appendRow fs (csvRow text label) ↔ CONFIDENCE_THRESHOLD ≤ confidence) ∧
    (maybe_auto_label fs text label confidence).2 = none := by
  by_cases h : CONFIDENCE_THRESHOLD ≤ confidence
  · simp [maybe_auto_label, gatePersists, h]
  · simp [maybe_auto_label, gatePersists, h]
    intro he
    exact absurd he.symm (appendRow_ne fs (csvRow text label))

/-! ## Claim C6 — CSV quoting round trip -/

/-- C6 counterexample: the gate's writer emits a backslash verbatim (the
excel dialect has no escape character), but the merge step's reader is
configured with `escapechar='\\'`, so the text `a\b` comes back as `ab`,
not the original string. -/
theorem c6_backslash_counterexample :
    roundTripText ['a', '\\', 'b'] = some ['a', 'b'] ∧
    (['a', 'b'] : List Char) ≠ ['a', '\\', 'b'] := by
  constructor
  · rfl
  · decide

/-- C6 (amended): for every text containing no backslash — including texts
with embedded double quotes, commas, newlines, or carriage returns —
writing the record via the Auto-Label Gate and re-parsing it with the
merge step's reader yields back the exact original string.  A text
containing a backslash is corrupted, because the writer never escapes
backslashes while the reader treats backslash as its escape character. -/
theorem c6_roundtrip_without_backslash (t : List Char) (h : '\\' ∉ t) :
    roundTripText t = some t := by
  by_cases hq : needsQuote t
  · have hrow : csvRow t ['l'] = '"' :: (doubleQuotes t ++ '"' :: ',' :: ['l', '\r', '\n']) := by
      rw [csvRow, encodeField, if_pos hq, encodeField,
        if_neg (by decide : ¬ needsQuote ['l'] = true)]
      simp
    rw [roundTripText, hrow, parseField_quoted, parseQuoted_clean t h]
    rfl
  · have hall : ∀ c ∈ t, ¬c = '"' ∧ ¬c = ',' ∧ ¬c = '\n' ∧ ¬c = '\r' := by
      intro c hc
      by_contra hcon
      apply hq
      rw [needsQuote, List.any_eq_true]
      refine ⟨c, hc, ?_⟩
      simp only [Bool.or_eq_true, decide_eq_true_eq]
      tauto
    have hrow : csvRow t ['l'] = t ++ ',' :: ['l', '\r', '\n'] := by
      rw [csvRow, encodeField, if_neg hq, encodeField,
        if_neg (by decide : ¬ needsQuote ['l'] = true)]
      simp
    have hclean : ∀ c ∈ t, c ≠ ',' ∧ c ≠ '\r' ∧ c ≠ '\n' ∧ c ≠ '\\' := by
      intro c hc
      obtain ⟨_, g2, g3, g4⟩ := hall c hc
      exact ⟨g2, g4, g3, fun he => h (he ▸ hc)⟩
    rw [roundTripText, hrow]
    cases t with
    | nil => rfl
    | cons c cs =>
      have hcq : c ≠ '"' := (hall c (List.mem_cons_self c cs)).1
      rw [List.cons_append, parseField_unquoted c _ hcq, ← List.cons_append,
        parseUnquoted_clean (c :: cs) hclean]
      rfl

/-- C6 witness: a text with an embedded quote round-trips exactly. -/
theorem c6_roundtrip_witness :
    '\\' ∉ ['a', '"', 'b'] ∧ roundTripText ['a', '"', 'b'] = some ['a', '"', 'b'] :=
  ⟨by decide, c6_roundtrip_without_backslash ['a', '"', 'b'] (by decide)⟩

/-! ## Claim C7 — save/load round trip and construction -/

/-- C7 counterexample: with an index file present but the metadata file
missing, `Memory.__init__` does not start with an empty store — it loads
the index (one vector) while the metadata list starts empty, contradicting
the claimed "load only if both files exist, otherwise empty". -/
theorem c7_independent_load_counterexample :
    (⟨some [[(1 : ℚ)]], none⟩ : DiskState String).metaFile = none ∧
    (Memory.init String 1 ⟨some [[(1 : ℚ)]], none⟩).vectors.length = 1 ∧
    (Memory.init String 1 ⟨some [[(1 : ℚ)]], none⟩).metadata = [] :=
  ⟨rfl, rfl, rfl⟩

/-- C7 (amended): `save()` followed by construction reproduces the exact
in-memory store — hence the same `ntotal` and the same `query(v, k)` result
for every query — but the two files are loaded independently: the index
file is loaded if it exists (else an empty index is created) and the
metadata file is loaded if it exists (else the metadata list starts
empty), so with exactly one file present the store is partially loaded
rather than empty. -/
theorem c7_save_load_roundtrip {α : Type} (m : Memory α) :
    Memory.init α m.dim m.save = m ∧
    (Memory.init α m.dim m.save).vectors.length = m.vectors.length ∧
    (∀ q k, (Memory.init α m.dim m.save).query q k = m.query q k) ∧
    (∀ d : DiskState α,
      (Memory.init α m.dim d).vectors = d.indexFile.getD [] ∧
      (Memory.init α m.dim d).metadata = d.metaFile.getD []) := by
  have he : Memory.init α m.dim m.save = m := by
    cases m
    rfl
  refine ⟨he, by rw [he], fun q k => by rw [he], fun d => ?_⟩
  cases d with
  | mk idx mf => cases idx <;> cases mf <;> exact ⟨rfl, rfl⟩

/-! ## Claim C8 — degraded scoring without a model -/

/-- C8 counterexample: with no pipeline loaded, `predict` returns the
label `"unclassified"`, not the `"unknown"` the claim states. -/
theorem c8_unclassified_counterexample :
    Classifier.predict none "any text" = .ok ("unclassified", some 0) ∧
    ("unclassified" : String) ≠ "unknown" :=
  ⟨rfl, by decide⟩

/-- C8 (amended): when no trained model artifact exists the classifier
loads with `pipeline = None` (reporting the missing model at load time
with a printed warning rather than an exception), and `predict` then
returns the degraded result `("unclassified", 0.0)` for every input text
without raising. -/
theorem c8_predict_degraded (text : String) :
    Classifier.predict none text = .ok ("unclassified", some 0) := rfl

/-! ## Claim C5 — degenerate margin normalization -/

/-- C5: the spec (and the source's own `# Handle single class case`
comment) intend confidence 1.0 in the degenerate case, but model.py never
imports numpy, so the single-value branch `probs = np.array([1.0])` raises
NameError; and with two or more all-equal margins the normalization
divides zero by zero, producing NaN confidence (`none`), not 1.0.  This
theorem evaluates the embedded code at both failing inputs. -/
theorem c5_degenerate_branch_is_buggy :
    normalizeBranch [(5 : ℚ)] = .error .nameError ∧
    Classifier.predict (some (.margin ⟨["a", "b"], fun _ => [3, 3]⟩)) "x" =
      .ok ("a", none) :=
  ⟨rfl, rfl⟩

/-- A text is absent from a record list iff `lastWith` finds nothing. -/
theorem lastWith_eq_none_iff (t : String) (l : List LabeledRecord) :
    lastWith t l = none ↔ t ∉ l.map LabeledRecord.text := by
  induction l with
  | nil => simp [lastWith]
  | cons r rs ih =>
    cases hl : lastWith t rs with
    | some x =>
      have : t ∈ rs.map LabeledRecord.text := by
        by_contra hc
        rw [← ih] at hc
        rw [hc] at hl
        exact Option.noConfusion hl
      simp [lastWith, hl, this]
    | none =>
      have hnm : t ∉ rs.map LabeledRecord.text := ih.mp hl
      by_cases ht : r.text = t
      · simp [lastWith, hl, ht]
      · simp [lastWith, hl, ht, hnm]
        exact fun he => ht he.symm

/-- Keep-last deduplication leaves, for each text, exactly the last record
that carried it. -/
theorem dedupKeepLast_filter (t : String) (l : List LabeledRecord) :
    (dedupKeepLast l).filter (fun r => decide (r.text = t)) = (lastWith t l).toList := by
  induction l with
  | nil => rfl
  | cons r rs ih =>
    by_cases hm : r.text ∈ rs.map LabeledRecord.text
    · rw [show dedupKeepLast (r :: rs) = dedupKeepLast rs by simp [dedupKeepLast, hm]]
      rw [ih]
      cases hl : lastWith t rs with
      | some x => simp [lastWith, hl]
      | none =>
        have hnm : t ∉ rs.map LabeledRecord.text := (lastWith_eq_none_iff t rs).mp hl
        have hne : ¬ r.text = t := fun he => hnm (he ▸ hm)
        simp [lastWith, hl, hne]
    · rw [show dedupKeepLast (r :: rs) = r :: dedupKeepLast rs by simp [dedupKeepLast, hm]]
      rw [List.filter_cons]
      by_cases ht : r.text = t
      · have hnone : lastWith t rs = none :=
          (lastWith_eq_none_iff t rs).mpr (fun hmem => hm (ht ▸ hmem))
        simp [ht, lastWith, hnone, ih]
      · cases hl : lastWith t rs with
        | some x => simp [ht, lastWith, hl, ih]
        | none => simp [ht, lastWith, hl, ih]

/-- Keep-first deduplication leaves, for each text not yet seen, exactly
the first record that carried it. -/
theorem dedupKeepFirstAux_filter (t : String) (seen : List String)
    (l : List LabeledRecord) :
    (dedupKeepFirstAux seen l).filter (fun r => decide (r.text = t)) =
      if t ∈ seen then [] else (firstWith t l).toList := by
  induction l generalizing seen with
  | nil =>
    simp only [dedupKeepFirstAux, List.filter_nil, firstWith]
    split <;> rfl
  | cons r rs ih =>
    by_cases hs : r.text ∈ seen
    · rw [show dedupKeepFirstAux seen (r :: rs) = dedupKeepFirstAux seen rs by
        simp [dedupKeepFirstAux, hs]]
      rw [ih seen]
      by_cases hts : t ∈ seen
      · simp [hts]
      · have hne : ¬ r.text = t := fun he => hts (he ▸ hs)
        simp [hts, firstWith, hne]
    · rw [show dedupKeepFirstAux seen (r :: rs) = r :: dedupKeepFirstAux (r.text :: seen) rs by
        simp [dedupKeepFirstAux, hs]]
      rw [List.filter_cons]
      by_cases ht : r.text = t
      · subst ht
        have h1 := ih (r.text :: seen)
        rw [if_pos (List.mem_cons_self r.text seen)] at h1
        simp [h1, hs, firstWith]
      · have ht2 : ¬ t = r.text := fun he => ht he.symm
        simp [ht, ht2, ih (r.text :: seen), firstWith]

/-! ## Claim C3 — merge deduplicates keeping the pending (last) record -/

/-- C3: `merge_auto_labeled_data` concatenates the pending records onto
the main dataset and deduplicates by exact text keeping the last
occurrence: for every text the merged dataset retains exactly the last
record of `main ++ pending` with that text (so a pending record beats an
existing one with the same text); in particular merging main
`("foo", "A")` with pending `("foo", "B")` yields exactly `("foo", "B")`
and deletes the pending store. -/
theorem c3_merge_dedups_keeping_last :
    (∀ (main pending : List LabeledRecord) (t : String), pending ≠ [] →
      ((merge_auto_labeled_data (some main) (some pending)).1.getD []).filter
          (fun r => decide (r.text = t)) =
        (lastWith t (main ++ pending)).toList) ∧
    merge_auto_labeled_data (some [⟨"foo", "A"⟩]) (some [⟨"foo", "B"⟩]) =
      (some [⟨"foo", "B"⟩], none) := by
  constructor
  · intro main pending t hne
    cases pending with
    | nil => exact absurd rfl hne
    | cons p ps =>
      rw [show (merge_auto_labeled_data (some main) (some (p :: ps))).1 =
            some (dedupKeepLast (main ++ p :: ps)) by
          simp [merge_auto_labeled_data]]
      exact dedupKeepLast_filter t (main ++ p :: ps)
  · rw [show merge_auto_labeled_data (some [⟨"foo", "A"⟩]) (some [⟨"foo", "B"⟩]) =
        (some (dedupKeepLast ([⟨"foo", "A"⟩] ++ [⟨"foo", "B"⟩])), none) by
      simp [merge_auto_labeled_data]]
    simp [dedupKeepLast]

/-- C3 witness: the general part of the theorem applied to the spec's own
example. -/
theorem c3_merge_witness :
    ([(⟨"foo", "B"⟩ : LabeledRecord)] ≠ []) ∧
    ((merge_auto_labeled_data (some [⟨"foo", "A"⟩]) (some [⟨"foo", "B"⟩])).1.getD []).filter
        (fun r => decide (r.text = "foo")) =
      (lastWith "foo" ([⟨"foo", "A"⟩] ++ [⟨"foo", "B"⟩])).toList :=
  ⟨by decide,
   c3_merge_dedups_keeping_last.1 [⟨"foo", "A"⟩] [⟨"foo", "B"⟩] "foo" (by decide)⟩

/-! ## Claim C10 — importing the memory module runs the merge script -/

/-- C10: executing `import memory` runs the module-level script: it reads
`data/auto_labeled.csv` and `data/labeled.csv` — raising (and aborting the
import, so no Memory object can be constructed) if either is absent — and
otherwise overwrites `data/labeled.csv` with the concatenation
deduplicated by text keeping the first occurrence, so for every text the
surviving record is the first of `labeled ++ auto` with that text
(existing records win). -/
theorem c10_memory_import_merges_keep_first :
    (∀ fs : MergeScriptFs, fs.autoLabeledCsv = none ∨ fs.labeledCsv = none →
      memoryModuleImport fs = .error .fileNotFound) ∧
    (∀ (autoRecs labeledRecs : List LabeledRecord) (t : String),
      memoryModuleImport ⟨some autoRecs, some labeledRecs⟩ =
        .ok ⟨some autoRecs, some (dedupKeepFirst (labeledRecs ++ autoRecs))⟩ ∧
      (dedupKeepFirst (labeledRecs ++ autoRecs)).filter (fun r => decide (r.text = t)) =
        (firstWith t (labeledRecs ++ autoRecs)).toList) := by
  constructor
  · intro fs h
    obtain ⟨af, lf⟩ := fs
    rcases h with h | h
    · subst h
      rfl
    · subst h
      cases af <;> rfl
  · intro autoRecs labeledRecs t
    refine ⟨rfl, ?_⟩
    have := dedupKeepFirstAux_filter t [] (labeledRecs ++ autoRecs)
    simpa [dedupKeepFirst] using this

/-- C10 witness: with the auto-labeled CSV absent the import raises, and
with both present the merge keeps the existing record for a duplicated
text. -/
theorem c10_import_witness :
    memoryModuleImport ⟨none, some [⟨"foo", "A"⟩]⟩ = .error .fileNotFound ∧
    (dedupKeepFirst ([⟨"foo", "A"⟩] ++ [⟨"foo", "B"⟩])).filter
        (fun r => decide (r.text = "foo")) =
      (firstWith "foo" ([⟨"foo", "A"⟩] ++ [⟨"foo", "B"⟩])).toList :=
  ⟨c10_memory_import_merges_keep_first.1 ⟨none, some [⟨"foo", "A"⟩]⟩ (Or.inl rfl),
   (c10_memory_import_merges_keep_first.2 [⟨"foo", "B"⟩] [⟨"foo", "A"⟩] "foo").2⟩

/-- Successful float32 conversion preserves the vector's length. -/
theorem toFloat32Vec_length (v : List NdValue) (x : List ℚ)
    (h : toFloat32Vec v = some x) : x.length = v.length := by
  induction v generalizing x with
  | nil =>
    simp [toFloat32Vec] at h
    simp [← h]
  | cons a as ih =>
    cases a with
    | none => simp [toFloat32Vec] at h
    | some q =>
      simp only [toFloat32Vec, Option.map_eq_some'] at h
      obtain ⟨y, hy, hx⟩ := h
      rw [← hx, List.length_cons, List.length_cons, ih y hy]

/-- Float32 conversion fails on any non-numeric entry. -/
theorem toFloat32Vec_none_of_mem (v : List NdValue) (h : none ∈ v) :
    toFloat32Vec v = none := by
  induction v with
  | nil => cases h
  | cons a as ih =>
    cases a with
    | none => rfl
    | some q =>
      have : none ∈ as := by
        cases h with
        | tail _ hm => exact hm
      simp [toFloat32Vec, ih this]

/-! ## Claim C2 — add preserves positional alignment -/

/-- C2: `Memory.add` preserves the positional-alignment invariant
`len(metadata) = index.ntotal`: a successful add appends exactly one
vector and one metadata record, and every failing add — a non-ndarray
argument (TypeError), a non-numeric ndarray (ValueError from the float32
conversion), or a wrong-dimension ndarray (rejected by FAISS) — raises
before mutating either the index or the metadata list, leaving the store
unchanged. -/
theorem c2_add_preserves_alignment {α : Type} (m : Memory α) (arg : AddArg) (meta : α)
    (hal : m.metadata.length = m.vectors.length) :
    ((m.add arg meta).1.metadata.length = (m.add arg meta).1.vectors.length) ∧
    ((m.add arg meta).2 ≠ none → (m.add arg meta).1 = m) ∧
    ((m.add arg meta).2 = none →
      (m.add arg meta).1.vectors.length = m.vectors.length + 1) ∧
    (arg = .other → (m.add arg meta).2 ≠ none) ∧
    (∀ v, arg = .ndarray v → (none ∈ v ∨ v.length ≠ m.dim) →
      (m.add arg meta).2 ≠ none) := by
  cases arg with
  | other =>
    refine ⟨hal, fun _ => rfl, fun h => absurd h (by simp [Memory.add]), fun _ => ?_, ?_⟩
    · simp [Memory.add]
    · intro v hv
      exact absurd hv (by simp)
  | ndarray v =>
    cases hf : toFloat32Vec v with
    | none =>
      have hadd : m.add (.ndarray v) meta = (m, some .valueError) := by
        simp [Memory.add, hf]
      refine ⟨by rw [hadd]; exact hal, fun _ => by rw [hadd], ?_, ?_, ?_⟩
      · rw [hadd]
        intro h
        exact absurd h (by simp)
      · intro h
        exact absurd h (by simp)
      · intro v' _ _
        rw [hadd]
        simp
    | some x =>
      by_cases hd : x.length = m.dim
      · have hadd : m.add (.ndarray v) meta =
            (⟨m.dim, m.vectors ++ [x], m.metadata ++ [meta]⟩, none) := by
          simp [Memory.add, hf, hd]
        refine ⟨?_, ?_, ?_, ?_, ?_⟩
        · rw [hadd]
          simp [hal]
        · rw [hadd]
          intro h
          exact absurd rfl h
        · rw [hadd]
          intro _
          simp
        · intro h
          exact absurd h (by simp)
        · intro v' hv hbad
          have hvv : v' = v := by
            cases hv
            rfl
          subst hvv
          rcases hbad with hb | hb
          · rw [toFloat32Vec_none_of_mem v' hb] at hf
            exact Option.noConfusion hf
          · exact absurd (toFloat32Vec_length v' x hf ▸ hd) hb
      · have hadd : m.add (.ndarray v) meta = (m, some .faissDimError) := by
          simp [Memory.add, hf, hd]
        refine ⟨by rw [hadd]; exact hal, fun _ => by rw [hadd], ?_, ?_, ?_⟩
        · rw [hadd]
          intro h
          exact absurd h (by simp)
        · intro h
          exact absurd h (by simp)
        · intro v' _ _
          rw [hadd]
          simp

/-- C2 witness: the theorem applied to an aligned two-dimensional store
and a well-formed vector. -/
theorem c2_add_witness :
    ((⟨2, [], []⟩ : Memory String).metadata.length =
      (⟨2, [], []⟩ : Memory String).vectors.length) ∧
    (((⟨2, [], []⟩ : Memory String).add (.ndarray [some 1, some 2]) "m").1.metadata.length =
      ((⟨2, [], []⟩ : Memory String).add (.ndarray [some 1, some 2]) "m").1.vectors.length) :=
  ⟨rfl, (c2_add_preserves_alignment ⟨2, [], []⟩ (.ndarray [some 1, some 2]) "m" rfl).1⟩

/-- NumPy max of a nonempty array is one of its entries. -/
theorem npMax_mem (l : List ℚ) (h : l ≠ []) : npMax l ∈ l := by
  induction l with
  | nil => exact absurd rfl h
  | cons x xs ih =>
    cases xs with
    | nil => simp [npMax]
    | cons y ys =>
      rcases max_choice x (npMax (y :: ys)) with hm | hm
      · rw [show npMax (x :: y :: ys) = max x (npMax (y :: ys)) from rfl, hm]
        exact List.mem_cons_self x (y :: ys)
      · rw [show npMax (x :: y :: ys) = max x (npMax (y :: ys)) from rfl, hm]
        exact List.mem_cons_of_mem x (ih (by simp))

/-- Every entry is bounded by the NumPy max. -/
theorem le_npMax (l : List ℚ) (y : ℚ) (h : y ∈ l) : y ≤ npMax l := by
  induction l with
  | nil => cases h
  | cons x xs ih =>
    cases xs with
    | nil =>
      rcases List.mem_singleton.mp h with rfl
      exact le_refl _
    | cons z zs =>
      rw [show npMax (x :: z :: zs) = max x (npMax (z :: zs)) from rfl]
      cases h with
      | head => exact le_max_left _ _
      | tail _ hm => exact le_trans (ih hm) (le_max_right _ _)

/-- The NumPy min bounds every entry from below. -/
theorem npMin_le (l : List ℚ) (y : ℚ) (h : y ∈ l) : npMin l ≤ y := by
  induction l with
  | nil => cases h
  | cons x xs ih =>
    cases xs with
    | nil =>
      rcases List.mem_singleton.mp h with rfl
      exact le_refl _
    | cons z zs =>
      rw [show npMin (x :: z :: zs) = min x (npMin (z :: zs)) from rfl]
      cases h with
      | head => exact min_le_left _ _
      | tail _ hm => exact le_trans (min_le_right _ _) (ih hm)

/-- The argmax scan returns the value stored at the index it returns. -/
theorem npArgmaxNV_get (l : List NumVal) (h : l ≠ []) :
    l.get? (npArgmaxNV l).1 = some (npArgmaxNV l).2 := by
  induction l with
  | nil => exact absurd rfl h
  | cons x xs ih =>
    cases xs with
    | nil => rfl
    | cons y ys =>
      rw [show npArgmaxNV (x :: y :: ys) =
          if nvReplace (npArgmaxNV (y :: ys)).2 x then
            ((npArgmaxNV (y :: ys)).1 + 1, (npArgmaxNV (y :: ys)).2)
          else (0, x) from rfl]
      by_cases hr : nvReplace (npArgmaxNV (y :: ys)).2 x
      · rw [if_pos hr]
        exact ih (by simp)
      · rw [if_neg hr]
        rfl

/-- On a NaN-free array the argmax value dominates every entry. -/
theorem npArgmaxNV_all_some (l : List NumVal) (h : l ≠ [])
    (hs : ∀ z ∈ l, z.isSome) :
    ∃ mv : ℚ, (npArgmaxNV l).2 = some mv ∧ ∀ y : ℚ, some y ∈ l → y ≤ mv := by
  induction l with
  | nil => exact absurd rfl h
  | cons x xs ih =>
    obtain ⟨a, rfl⟩ := Option.isSome_iff_exists.mp (hs x (List.mem_cons_self x xs))
    cases xs with
    | nil =>
      refine ⟨a, rfl, fun y hy => ?_⟩
      rcases List.mem_singleton.mp hy with hv
      rw [Option.some_inj.mp hv]
    | cons z zs =>
      obtain ⟨mv, hmv, hbound⟩ :=
        ih (by simp) (fun w hw => hs w (List.mem_cons_of_mem _ hw))
      rw [show npArgmaxNV (some a :: z :: zs) =
          if nvReplace (npArgmaxNV (z :: zs)).2 (some a) then
            ((npArgmaxNV (z :: zs)).1 + 1, (npArgmaxNV (z :: zs)).2)
          else (0, some a) from rfl]
      by_cases hr : nvReplace (npArgmaxNV (z :: zs)).2 (some a)
      · rw [if_pos hr]
        refine ⟨mv, hmv, fun y hy => ?_⟩
        cases hy with
        | head =>
          rw [hmv] at hr
          simp [nvReplace] at hr
          exact le_of_lt hr
        | tail _ hm => exact hbound y hm
      · rw [if_neg hr]
        rw [hmv] at hr
        simp [nvReplace] at hr
        refine ⟨a, rfl, fun y hy => ?_⟩
        cases hy with
        | head => exact le_refl _
        | tail _ hm => exact le_trans (hbound y hm) hr

/-! ## Claim C9 — the margin fallback always reports confidence 1.0 -/

/-- C9: whenever the decision_function fallback runs on a margin vector
with at least two entries that are not all equal, min-max normalization
forces the maximum normalized value — and hence the returned confidence —
to be exactly 1.0, so the prediction clears every threshold at most 1.0,
including the configured CONFIDENCE_THRESHOLD, and is always
auto-labeled. -/
theorem c9_margin_fallback_always_confident (p : MarginModel) (text : String)
    (h2 : 2 ≤ (p.decisionFunction text).length)
    (hne : npMax (p.decisionFunction text) ≠ npMin (p.decisionFunction text))
    (hcls : p.classes.length = (p.decisionFunction text).length) :
    (∃ c, Classifier.predict (some (.margin p)) text = .ok (c, some 1)) ∧
    (∀ thr : ℚ, thr ≤ 1 → gatePersists 1 thr = true) ∧
    gatePersists 1 CONFIDENCE_THRESHOLD = true := by
  have h1 : 1 < (p.decisionFunction text).length := lt_of_lt_of_le one_lt_two h2
  set dv := p.decisionFunction text with hdv
  have hdvne : dv ≠ [] := by
    intro hnil
    rw [hnil] at h1
    simp at h1
  have hminmax : npMin dv ≤ npMax dv := npMin_le dv (npMax dv) (npMax_mem dv hdvne)
  have hlt : npMin dv < npMax dv := lt_of_le_of_ne hminmax (Ne.symm hne)
  have hden : npMax dv - npMin dv ≠ 0 := sub_ne_zero.mpr hne
  have hpos : (0 : ℚ) < npMax dv - npMin dv := sub_pos.mpr hlt
  set probs := dv.map (fun x => (some ((x - npMin dv) / (npMax dv - npMin dv)) : NumVal))
    with hprobs
  have hnb : normalizeBranch dv = .ok probs := by
    rw [normalizeBranch, if_pos h1, if_neg hne]
  have hprobsne : probs ≠ [] := by
    rw [hprobs]
    intro hnil
    exact hdvne (List.map_eq_nil_iff.mp hnil)
  have hsome : ∀ z ∈ probs, z.isSome := by
    intro z hz
    rw [hprobs] at hz
    obtain ⟨x, _, hx⟩ := List.mem_map.mp hz
    rw [← hx]
    rfl
  obtain ⟨mv, hmv, hbound⟩ := npArgmaxNV_all_some probs hprobsne hsome
  have hone_mem : (some (1 : ℚ) : NumVal) ∈ probs := by
    rw [hprobs]
    refine List.mem_map.mpr ⟨npMax dv, npMax_mem dv hdvne, ?_⟩
    rw [div_self hden]
  have h1le : (1 : ℚ) ≤ mv := hbound 1 hone_mem
  have hget := npArgmaxNV_get probs hprobsne
  rw [hmv] at hget
  have hmv_mem : (some mv : NumVal) ∈ probs := List.get?_mem hget
  have hmvle : mv ≤ 1 := by
    rw [hprobs] at hmv_mem
    obtain ⟨x, hxdv, hx⟩ := List.mem_map.mp hmv_mem
    have : (x - npMin dv) / (npMax dv - npMin dv) = mv := Option.some_inj.mp hx
    rw [← this, div_le_one hpos]
    exact sub_le_sub_right (le_npMax dv x hxdv) _
  have hmv1 : mv = 1 := le_antisymm hmvle h1le
  have hlen : (npArgmaxNV probs).1 < probs.length := by
    obtain ⟨hh, _⟩ := List.get?_eq_some.mp hget
    exact hh
  have hlen2 : (npArgmaxNV probs).1 < p.classes.length := by
    rw [hcls, hdv]
    calc (npArgmaxNV probs).1 < probs.length := hlen
    _ = dv.length := by rw [hprobs, List.length_map]
  refine ⟨⟨p.classes.get ⟨(npArgmaxNV probs).1, hlen2⟩, ?_⟩, ?_, ?_⟩
  · rw [show Classifier.predict (some (.margin p)) text =
        (match normalizeBranch (p.decisionFunction text) with
        | .error e => .error e
        | .ok probs2 => selectBest p.classes probs2) from rfl]
    rw [← hdv, hnb]
    show selectBest p.classes probs = _
    rw [show selectBest p.classes probs =
        (match p.classes.get? (npArgmaxNV probs).1, probs.get? (npArgmaxNV probs).1 with
        | some c, some conf => Except.ok (c, conf)
        | _, _ => Except.error PyErr.indexError) from rfl]
    rw [List.get?_eq_get hlen2, hget, hmv1]
  · intro thr hthr
    simp [gatePersists, hthr]
  · simp [gatePersists, CONFIDENCE_THRESHOLD]
    norm_num

/-- C9 witness: a three-class margin vector with distinct entries yields
confidence exactly 1. -/
theorem c9_fallback_witness :
    (2 ≤ ((⟨["a", "b", "c"], fun _ => [3, 7, 5]⟩ : MarginModel).decisionFunction "x").length) ∧
    (∃ c, Classifier.predict (some (.margin ⟨["a", "b", "c"], fun _ => [3, 7, 5]⟩)) "x" =
      .ok (c, some 1)) :=
  ⟨by decide,
   (c9_margin_fallback_always_confident ⟨["a", "b", "c"], fun _ => [3, 7, 5]⟩ "x"
      (by decide) (by decide) (by decide)).1⟩

/-- Positions produced by withIdx are bounded by start plus length. -/
theorem withIdx_idx_lt (ds : List ℚ) (i : ℕ) (p : ℕ × ℚ) (h : p ∈ withIdx ds i) :
    p.1 < i + ds.length := by
  induction ds generalizing i with
  | nil => cases h
  | cons d rest ih =>
    cases h with
    | head => simp
    | tail _ hm =>
      have := ih (i + 1) hm
      simp only [List.length_cons]
      omega

/-- withIdx preserves length. -/
theorem withIdx_length (ds : List ℚ) (i : ℕ) : (withIdx ds i).length = ds.length := by
  induction ds generalizing i with
  | nil => rfl
  | cons d rest ih => simp [withIdx, ih]

/-- Every label produced by the FAISS search is a valid stored position. -/
theorem searchPairs_idx_lt (vecs : List (List ℚ)) (q : List ℚ) (p : ℕ × ℚ)
    (h : p ∈ searchPairs vecs q) : p.1 < vecs.length := by
  rw [searchPairs, List.mem_insertionSort] at h
  have := withIdx_idx_lt (vecs.map (sqDist q)) 0 p h
  simpa using this

/-- Filtering the sentinel `-1` labels from a search result leaves exactly
the genuine matches. -/
theorem faissSearch_filter (vecs : List (List ℚ)) (q : List ℚ) (k : ℕ) :
    (faissSearch vecs q k).filter (fun p => p.1 != -1) =
      ((searchPairs vecs q).take k).map (fun p => ((p.1 : ℤ), p.2)) := by
  rw [faissSearch, List.filter_append]
  have h1 : (((searchPairs vecs q).take k).map
      (fun p => ((p.1 : ℤ), p.2))).filter (fun p => p.1 != -1) =
      ((searchPairs vecs q).take k).map (fun p => ((p.1 : ℤ), p.2)) := by
    refine List.filter_eq_self.mpr ?_
    intro x hx
    obtain ⟨y, _, hy⟩ := List.mem_map.mp hx
    rw [← hy]
    simp only [bne_iff_ne, ne_eq]
    intro hc
    have : (0 : ℤ) ≤ (y.1 : ℤ) := Int.natCast_nonneg y.1
    omega
  have h2 : (List.replicate
      (k - (((searchPairs vecs q).take k).map (fun p => ((p.1 : ℤ), p.2))).length)
      ((-1 : ℤ), (0 : ℚ))).filter (fun p => p.1 != -1) = [] := by
    refine List.filter_eq_nil_iff.mpr ?_
    intro a ha
    rw [List.eq_of_mem_replicate ha]
    simp
  rw [h1, h2, List.append_nil]

/-- Metadata lookup succeeds on any list of in-range labels. -/
theorem lookupAll_total {α : Type} (meta : List α) (ps : List (ℤ × ℚ))
    (h : ∀ p ∈ ps, p.1.toNat < meta.length) :
    ∃ l, lookupAll meta ps = some l ∧ l.length = ps.length := by
  induction ps with
  | nil => exact ⟨[], rfl, rfl⟩
  | cons p ps ih =>
    obtain ⟨l, hl, hlen⟩ := ih (fun x hx => h x (List.mem_cons_of_mem p hx))
    have hp := h p (List.mem_cons_self p ps)
    refine ⟨meta.get ⟨p.1.toNat, hp⟩ :: l, ?_, by simp [hlen]⟩
    rw [show lookupAll meta (p :: ps) =
        (match meta.get? p.1.toNat, lookupAll meta ps with
        | some r, some rs => some (r :: rs)
        | _, _ => none) from rfl]
    rw [List.get?_eq_get hp, hl]

/-! ## Claim C4 — query is total, bounded, and distance-ordered -/

/-- C4: on an aligned store, `query` never raises for any `k`: it returns
a metadata list of at most `ntotal` records (the empty list on an empty
store), the FAISS sentinel `-1` labels are filtered out before indexing
the metadata list (so every lookup is in range), and the surviving
matches are ordered by ascending squared Euclidean distance. -/
theorem c4_query_never_raises {α : Type} (m : Memory α) (q : List ℚ) (k : ℕ)
    (hal : m.metadata.length = m.vectors.length) (hq : q.length = m.dim) :
    (∃ l, m.query q k = some l ∧ l.length ≤ m.vectors.length) ∧
    (m.vectors = [] → m.query q k = some []) ∧
    List.Sorted (fun a b => a ≤ b)
      (((faissSearch m.vectors q k).filter (fun p => p.1 != -1)).map Prod.snd) := by
  have hsorted_all : List.Sorted distLe (searchPairs m.vectors q) :=
    List.sorted_insertionSort distLe _
  have hsorted_take : List.Sorted distLe ((searchPairs m.vectors q).take k) :=
    hsorted_all.sublist (List.take_sublist k _)
  have hsorted_final : List.Sorted (fun a b => a ≤ b)
      (((faissSearch m.vectors q k).filter (fun p => p.1 != -1)).map Prod.snd) := by
    rw [faissSearch_filter, List.map_map]
    rw [show (Prod.snd ∘ fun p : ℕ × ℚ => ((p.1 : ℤ), p.2)) = Prod.snd from rfl]
    exact List.pairwise_map.mpr hsorted_take
  by_cases he : m.vectors.isEmpty
  · have hv : m.vectors = [] := List.isEmpty_iff.mp he
    have hqr : m.query q k = some [] := by
      rw [Memory.query, if_pos he]
    exact ⟨⟨[], hqr, by simp⟩, fun _ => hqr, hsorted_final⟩
  · have hv : m.vectors ≠ [] := fun hnil => he (List.isEmpty_iff.mpr hnil)
    have hcond : ¬ (q.length ≠ m.dim) := fun hc => hc hq
    have hqr : m.query q k =
        lookupAll m.metadata ((faissSearch m.vectors q k).filter (fun p => p.1 != -1)) := by
      rw [Memory.query, if_neg (by simpa using hv), if_neg hcond]
    have hbound : ∀ p ∈ (faissSearch m.vectors q k).filter (fun p => p.1 != -1),
        p.1.toNat < m.metadata.length := by
      intro p hp
      rw [faissSearch_filter] at hp
      obtain ⟨y, hy, hyp⟩ := List.mem_map.mp hp
      have hmem : y ∈ searchPairs m.vectors q := List.take_subset k _ hy
      have hlt := searchPairs_idx_lt m.vectors q y hmem
      rw [← hyp]
      simpa [hal] using hlt
    obtain ⟨l, hl, hlen⟩ := lookupAll_total m.metadata _ hbound
    refine ⟨⟨l, by rw [hqr, hl], ?_⟩, fun hnil => absurd hnil hv, hsorted_final⟩
    rw [hlen, faissSearch_filter, List.length_map]
    calc ((searchPairs m.vectors q).take k).length
        ≤ (searchPairs m.vectors q).length := by
          rw [List.length_take]
          exact min_le_right _ _
      _ = m.vectors.length := by
          rw [searchPairs, List.length_insertionSort, withIdx_length, List.length_map]

/-- C4 witness: querying a two-entry store with k = 5 succeeds and returns
at most two records. -/
theorem c4_query_witness :
    ((⟨2, [[1, 0], [0, 1]], ["a", "b"]⟩ : Memory String).metadata.length =
      (⟨2, [[1, 0], [0, 1]], ["a", "b"]⟩ : Memory String).vectors.length) ∧
    (∃ l, (⟨2, [[1, 0], [0, 1]], ["a", "b"]⟩ : Memory String).query [1, 0] 5 = some l ∧
      l.length ≤ (⟨2, [[1, 0], [0, 1]], ["a", "b"]⟩ : Memory String).vectors.length) :=
  ⟨rfl, (c4_query_never_raises ⟨2, [[1, 0], [0, 1]], ["a", "b"]⟩ [1, 0] 5 rfl rfl).1⟩
